import Mathlib

/-!
Verification of the OSRM binary-segment writer (`src/io/osrm_writer.hpp`).

The writer is a policy-based class `OSRMWriter<HeaderWritePolicy, TypeWritePolicy,
FinalizeWritePolicy>` over a `std::ostream`.  We embed the stream as a list of
bytes together with a write position; `stream.write` overwrites bytes at the
current position (extending the stream when writing at the end), `seekp` moves
the position and `tellp` reads it.  Values handed to the writer (headers and
items) are represented by their raw in-memory bytes, i.e. as `List Nat` with
each entry a byte, since the concrete policies write `sizeof(T)` raw bytes via
`reinterpret_cast<const char *>`.  `std::size_t` counters are embedded as `Nat`;
the `static_cast<unsigned>` narrowing in the finalize policy becomes `% 2^32`.

A second stream model (`FStream`) additionally carries the `std::ostream`
failbit and a capacity after which writes fail, to reason about I/O failure
propagation.
-/

namespace OsrmIO

/-- A byte is a `Nat` (meant `< 256`; the writer copies bytes verbatim, so no
arithmetic on byte values is ever performed by the code being modelled). -/
abbrev Byte := Nat

/-- Little-endian raw bytes of a 32-bit `unsigned` value, as written by
`stream.write(reinterpret_cast<const char *>(&len), sizeof(unsigned))`. -/
def u32le (n : Nat) : List Byte :=
  [n % 256, n / 256 % 256, n / 65536 % 256, n / 16777216 % 256]

/-- Decode the first four bytes of a list as a little-endian 32-bit value
(how a reader recovers the length mark; `0` if fewer than 4 bytes). -/
def decodeU32 (bs : List Byte) : Nat :=
  match bs with
  | a :: b :: c :: d :: _ => a + 256 * b + 65536 * c + 16777216 * d
  | _ => 0

/-- Overwrite `data` at position `pos` with the bytes `bs`, keeping bytes
before `pos` and after `pos + bs.length` (the effect of `ostream::write` at an
intermediate position; at the end of the stream it appends). -/
def writeAt (data : List Byte) (pos : Nat) (bs : List Byte) : List Byte :=
  data.take pos ++ bs ++ data.drop (pos + bs.length)

/-- A seekable output stream: content bytes plus the write position.
Models the `std::ostream &` the writer borrows (failure-free view). -/
structure Stream where
  data : List Byte
  pos : Nat
deriving Repr, DecidableEq

/-- `stream.write(buf, n)`: overwrite at the current position, advance it. -/
def Stream.write (s : Stream) (bs : List Byte) : Stream :=
  { data := writeAt s.data s.pos bs, pos := s.pos + bs.length }

/-- `stream.tellp()`. -/
def Stream.tellp (s : Stream) : Nat := s.pos

/-- `stream.seekp(p)`. -/
def Stream.seekp (s : Stream) (p : Nat) : Stream := { s with pos := p }

/-! ### Policies (source names kept)

Each C++ policy is a static function mutating the stream and returning a
`std::size_t`; we embed it as a function returning `Stream × Nat`. -/

/-- `NoHeaderWritePolicy::Write`: writes nothing, returns 0. -/
def NoHeaderWritePolicy.Write (_header : List Byte) (stream : Stream)
    (_segment_start _count : Nat) : Stream × Nat :=
  (stream, 0)

/-- `NoTypeWritePolicy::Write`: writes nothing, returns 0. -/
def NoTypeWritePolicy.Write (_item : List Byte) (stream : Stream)
    (_segment_start _header_offset _count : Nat) : Stream × Nat :=
  (stream, 0)

/-- `NoFinalizeWritePolicy::Write`: writes nothing, returns 0. -/
def NoFinalizeWritePolicy.Write (stream : Stream)
    (_segment_start _header_offset _count : Nat) : Stream × Nat :=
  (stream, 0)

/-- `TrivialHeaderWritePolicy::Write`: writes the header's `sizeof(T)` raw
bytes at the current position and returns that byte count as the offset. -/
def TrivialHeaderWritePolicy.Write (header : List Byte) (stream : Stream)
    (_segment_start _count : Nat) : Stream × Nat :=
  (stream.write header, header.length)

/-- `TrivialTypeWritePolicy::Write`: writes the item's `sizeof(T)` raw bytes
at the current position and returns 1 (one logical item). -/
def TrivialTypeWritePolicy.Write (item : List Byte) (stream : Stream)
    (_segment_start _header_offset _count : Nat) : Stream × Nat :=
  (stream.write item, 1)

/-- `LengthPrefixHeaderWritePolicy::Write`: writes a 4-byte zero `unsigned`
placeholder (`const unsigned reserved = 0`) and returns 0, so the reserved
space is not offset and the finalizer writes into it. -/
def LengthPrefixHeaderWritePolicy.Write (_header : List Byte) (stream : Stream)
    (_segment_start _count : Nat) : Stream × Nat :=
  (stream.write (u32le 0), 0)

/-- `LengthPrefixFinalizeWritePolicy::Write`: remembers `here = tellp()`, seeks
to `segment_start + header_offset`, writes `static_cast<unsigned>(count)` (the
count narrowed modulo `2^32`) as 4 raw bytes, seeks back to `here`, returns 1. -/
def LengthPrefixFinalizeWritePolicy.Write (stream : Stream)
    (segment_start header_offset count : Nat) : Stream × Nat :=
  let here := stream.tellp
  let s1 := (stream.seekp (segment_start + header_offset)).write
      (u32le (count % 4294967296))
  (s1.seekp here, 1)

/-! ### The writer orchestrator -/

/-- The member state of an `OSRMWriter` instance: the borrowed stream,
`segment_start_`, `header_offset_` and `count_`. -/
structure WriterState where
  stream : Stream
  segment_start : Nat
  header_offset : Nat
  count : Nat
deriving Repr, DecidableEq

/-- The `OSRMWriter` constructor: captures `segment_start = stream.tellp()`,
sets `count = 0`, and runs the header policy to obtain `header_offset`.
The header policy is passed as a function, mirroring the template parameter. -/
def OSRMWriter.mk (hpolicy : List Byte → Stream → Nat → Nat → Stream × Nat)
    (stream : Stream) (header : List Byte) : WriterState :=
  let segment_start := stream.tellp
  let r := hpolicy header stream segment_start 0
  { stream := r.1, segment_start := segment_start, header_offset := r.2, count := 0 }

/-- `OSRMWriter::Write(item)`: runs the item policy and adds its returned
logical-item delta to `count_`. -/
def OSRMWriter.WriteItem
    (tpolicy : List Byte → Stream → Nat → Nat → Nat → Stream × Nat)
    (w : WriterState) (item : List Byte) : WriterState :=
  let r := tpolicy item w.stream w.segment_start w.header_offset w.count
  { w with stream := r.1, count := w.count + r.2 }

/-- The `OSRMWriter` destructor: runs the finalize policy once, discarding its
returned value (`(void)len`). Yields the stream as left behind. -/
def OSRMWriter.destroy (fpolicy : Stream → Nat → Nat → Nat → Stream × Nat)
    (w : WriterState) : Stream :=
  (fpolicy w.stream w.segment_start w.header_offset w.count).1

/-- `OSRMWriter::Count()`: read-only access to `count_`. -/
def WriterState.Count (w : WriterState) : Nat := w.count

/-! ### The canonical writer instantiations -/

/-- `HeaderWriter` construction: trivial header policy. -/
def HeaderWriter.mk (stream : Stream) (header : List Byte) : WriterState :=
  OSRMWriter.mk TrivialHeaderWritePolicy.Write stream header

/-- `HeaderWriter` item write (the no-op `NoTypeWritePolicy`). -/
def HeaderWriter.WriteItem (w : WriterState) (item : List Byte) : WriterState :=
  OSRMWriter.WriteItem NoTypeWritePolicy.Write w item

/-- `HeaderWriter` destruction (the no-op `NoFinalizeWritePolicy`). -/
def HeaderWriter.destroy (w : WriterState) : Stream :=
  OSRMWriter.destroy NoFinalizeWritePolicy.Write w

/-- A complete `HeaderWriter` lifetime: construct, write nothing, destroy. -/
def HeaderWriter.run (stream : Stream) (header : List Byte) : Stream :=
  HeaderWriter.destroy (HeaderWriter.mk stream header)

/-- `EdgeWriter` construction: length-mark header policy. -/
def EdgeWriter.mk (stream : Stream) (header : List Byte) : WriterState :=
  OSRMWriter.mk LengthPrefixHeaderWritePolicy.Write stream header

/-- `EdgeWriter::Write`: trivial item policy. -/
def EdgeWriter.WriteItem (w : WriterState) (item : List Byte) : WriterState :=
  OSRMWriter.WriteItem TrivialTypeWritePolicy.Write w item

/-- `EdgeWriter` destruction: length-mark finalize policy. -/
def EdgeWriter.destroy (w : WriterState) : Stream :=
  OSRMWriter.destroy LengthPrefixFinalizeWritePolicy.Write w

/-- A complete `EdgeWriter` lifetime: construct, write each item in order,
destroy (which runs the finalizer). -/
def EdgeWriter.run (stream : Stream) (header : List Byte)
    (items : List (List Byte)) : Stream :=
  EdgeWriter.destroy (items.foldl EdgeWriter.WriteItem (EdgeWriter.mk stream header))

/-- `NodeWriter` is the same instantiation as `EdgeWriter`
(`LengthPrefixHeaderWritePolicy`, `TrivialTypeWritePolicy`,
`LengthPrefixFinalizeWritePolicy`). -/
def NodeWriter.run (stream : Stream) (header : List Byte)
    (items : List (List Byte)) : Stream :=
  EdgeWriter.run stream header items

/-! ### A reader for the counted-record wire format -/

/-- Read `n` fixed-width records of `w` bytes each from a byte list. -/
def readRecords (w : Nat) : Nat → List Byte → List (List Byte)
  | 0, _ => []
  | Nat.succ m, bs => bs.take w :: readRecords w m (bs.drop w)

/-- Read back a counted-record segment: the 4-byte count, then that many
records of width `w`. -/
def readSegment (w : Nat) (bs : List Byte) : Nat × List (List Byte) :=
  let n := decodeU32 bs
  (n, readRecords w n (bs.drop 4))

/-! ### Failure-aware stream model

`std::ostream` reports I/O failure through its failbit: a failed write sets
the bit, every subsequent operation on the stream is a no-op while it is set,
and nothing in `osrm_writer.hpp` ever inspects or clears the stream state, so
after the writer's lifetime the failbit is still visible to the caller, who
owns the stream.  `FStream` embeds these semantics: `cap` is the byte
capacity of the underlying sink (e.g. a filling disk) and a write that would
extend the stream past `cap` fails and raises `fail`. -/

structure FStream where
  data : List Byte
  pos : Nat
  cap : Nat
  fail : Bool
deriving Repr, DecidableEq

/-- `stream.write(buf, n)` on a possibly-failing stream: no-op once failed;
sets the failbit when the sink cannot hold the bytes. -/
def FStream.write (s : FStream) (bs : List Byte) : FStream :=
  if s.fail then s
  else if s.pos + bs.length ≤ s.cap then
    { s with data := writeAt s.data s.pos bs, pos := s.pos + bs.length }
  else { s with fail := true }

/-- `stream.tellp()` on a possibly-failing stream. -/
def FStream.tellp (s : FStream) : Nat := s.pos

/-- `stream.seekp(p)` on a possibly-failing stream: no-op once failed. -/
def FStream.seekp (s : FStream) (p : Nat) : FStream :=
  if s.fail then s else { s with pos := p }

/-- `LengthPrefixHeaderWritePolicy::Write` over the failure-aware stream. -/
def FLengthPrefixHeaderWrite (_header : List Byte) (stream : FStream)
    (_segment_start _count : Nat) : FStream × Nat :=
  (stream.write (u32le 0), 0)

/-- `TrivialTypeWritePolicy::Write` over the failure-aware stream. -/
def FTrivialTypeWrite (item : List Byte) (stream : FStream)
    (_segment_start _header_offset _count : Nat) : FStream × Nat :=
  (stream.write item, 1)

/-- `LengthPrefixFinalizeWritePolicy::Write` over the failure-aware stream. -/
def FLengthPrefixFinalizeWrite (stream : FStream)
    (segment_start header_offset count : Nat) : FStream × Nat :=
  let here := stream.tellp
  let s1 := (stream.seekp (segment_start + header_offset)).write
      (u32le (count % 4294967296))
  (s1.seekp here, 1)

/-- `OSRMWriter` member state over the failure-aware stream. -/
structure FWriterState where
  stream : FStream
  segment_start : Nat
  header_offset : Nat
  count : Nat
deriving Repr, DecidableEq

/-- The `EdgeWriter`/`NodeWriter` constructor over the failure-aware stream. -/
def FEdgeWriter.mk (stream : FStream) (header : List Byte) : FWriterState :=
  let segment_start := stream.tellp
  let r := FLengthPrefixHeaderWrite header stream segment_start 0
  { stream := r.1, segment_start := segment_start, header_offset := r.2,
    count := 0 }

/-- `EdgeWriter::Write` over the failure-aware stream. -/
def FEdgeWriter.WriteItem (w : FWriterState) (item : List Byte) : FWriterState :=
  let r := FTrivialTypeWrite item w.stream w.segment_start w.header_offset
      w.count
  { w with stream := r.1, count := w.count + r.2 }

/-- The `EdgeWriter` destructor over the failure-aware stream. -/
def FEdgeWriter.destroy (w : FWriterState) : FStream :=
  (FLengthPrefixFinalizeWrite w.stream w.segment_start w.header_offset
      w.count).1

/-- A complete `EdgeWriter` lifetime over the failure-aware stream. -/
def FEdgeWriter.run (stream : FStream) (header : List Byte)
    (items : List (List Byte)) : FStream :=
  FEdgeWriter.destroy
    (items.foldl FEdgeWriter.WriteItem (FEdgeWriter.mk stream header))

/-! ### Basic lemmas about the stream model -/

theorem u32le_length (n : Nat) : (u32le n).length = 4 := rfl

/-- Writing at the end of the stream appends the bytes. -/
theorem Stream.write_at_end (s : Stream) (bs : List Byte)
    (h : s.pos = s.data.length) :
    s.write bs = { data := s.data ++ bs, pos := s.data.length + bs.length } := by
  simp only [Stream.write, writeAt, h, Stream.mk.injEq, and_true]
  rw [List.take_length, List.drop_eq_nil_of_le (by omega), List.append_nil]

theorem decodeU32_u32le_append (n : Nat) (rest : List Byte) :
    decodeU32 (u32le n ++ rest) = n % 4294967296 := by
  simp only [u32le, List.cons_append, List.nil_append, decodeU32]
  omega

theorem decodeU32_u32le (n : Nat) : decodeU32 (u32le n) = n % 4294967296 := by
  have h := decodeU32_u32le_append n []
  rwa [List.append_nil] at h

/-- Reading back `n` records of width `w` from their concatenated bytes
recovers them, provided each really has width `w`. -/
theorem readRecords_flatten (w : Nat) (items : List (List Byte))
    (hw : ∀ it ∈ items, it.length = w) :
    readRecords w items.length items.flatten = items := by
  induction items with
  | nil => rfl
  | cons it rest ih =>
    have h1 : it.length = w := hw it (by simp)
    have h2 : ∀ x ∈ rest, x.length = w := fun x hx => hw x (by simp [hx])
    simp only [List.length_cons, List.flatten_cons, readRecords]
    rw [List.take_left' h1, List.drop_left' h1, ih h2]

/-! ### Behaviour of a full `EdgeWriter` lifetime -/

/-- Folding `EdgeWriter::Write` over a list of items, starting with the write
position at the end of the stream, appends all the item bytes and adds one to
the count per item. -/
theorem foldl_WriteItem_spec (items : List (List Byte)) (ws : WriterState)
    (h : ws.stream.pos = ws.stream.data.length) :
    items.foldl EdgeWriter.WriteItem ws =
      { stream := { data := ws.stream.data ++ items.flatten,
                    pos := ws.stream.data.length + items.flatten.length },
        segment_start := ws.segment_start,
        header_offset := ws.header_offset,
        count := ws.count + items.length } := by
  induction items generalizing ws with
  | nil =>
    obtain ⟨⟨d, p⟩, seg, off, c⟩ := ws
    simp only [List.foldl_nil, List.flatten_nil, List.append_nil, List.length_nil,
      Nat.add_zero]
    simp only at h
    simp [h]
  | cons it rest ih =>
    simp only [List.foldl_cons]
    have hw : EdgeWriter.WriteItem ws it =
        { ws with
          stream := { data := ws.stream.data ++ it,
                      pos := ws.stream.data.length + it.length },
          count := ws.count + 1 } := by
      simp only [EdgeWriter.WriteItem, OSRMWriter.WriteItem,
        TrivialTypeWritePolicy.Write]
      rw [Stream.write_at_end ws.stream it h]
    rw [hw, ih _ (by simp)]
    simp only [List.flatten_cons, List.length_cons, List.length_append,
      List.append_assoc, WriterState.mk.injEq, Stream.mk.injEq, true_and,
      and_true]
    omega

/-- The complete effect of one `EdgeWriter` lifetime started with the write
position at the end of the stream: the bytes appended are a 4-byte
little-endian count (narrowed modulo `2^32`) followed by the items' raw bytes
in order, and the final position is at the end of the appended bytes. -/
theorem EdgeWriter.run_spec (s : Stream) (header : List Byte)
    (items : List (List Byte)) (h : s.pos = s.data.length) :
    EdgeWriter.run s header items =
      { data := s.data ++ u32le (items.length % 4294967296) ++ items.flatten,
        pos := s.data.length + (4 + items.flatten.length) } := by
  have hmk : EdgeWriter.mk s header =
      { stream := { data := s.data ++ u32le 0, pos := s.data.length + 4 },
        segment_start := s.data.length, header_offset := 0, count := 0 } := by
    simp only [EdgeWriter.mk, OSRMWriter.mk, LengthPrefixHeaderWritePolicy.Write,
      Stream.tellp, h]
    rw [Stream.write_at_end s (u32le 0) h]
    rfl
  have hfold := foldl_WriteItem_spec items (EdgeWriter.mk s header)
    (by rw [hmk]; simp [u32le])
  rw [hmk] at hfold
  simp only [List.length_append, u32le_length, Nat.zero_add] at hfold
  simp only [EdgeWriter.run, EdgeWriter.destroy, OSRMWriter.destroy, hmk, hfold,
    LengthPrefixFinalizeWritePolicy.Write, Stream.tellp, Stream.seekp,
    Stream.write, writeAt, Nat.add_zero, u32le_length, Stream.mk.injEq]
  refine ⟨?_, by omega⟩
  have htake : ((s.data ++ u32le 0) ++ items.flatten).take s.data.length
      = s.data := by
    rw [List.append_assoc, List.take_left' rfl]
  have hdrop : ((s.data ++ u32le 0) ++ items.flatten).drop (s.data.length + 4)
      = items.flatten := by
    have hlen : (s.data ++ u32le 0).length = s.data.length + 4 := by
      simp [u32le_length]
    rw [← hlen, List.drop_left]
  rw [htake, hdrop]

/-- Count bookkeeping of the fold: `EdgeWriter::Write` adds exactly 1 to
`count_` per call (the value `TrivialTypeWritePolicy::Write` returns),
independent of the stream. -/
theorem foldl_WriteItem_count (items : List (List Byte)) (ws : WriterState) :
    (items.foldl EdgeWriter.WriteItem ws).count = ws.count + items.length := by
  induction items generalizing ws with
  | nil => simp
  | cons it rest ih =>
    simp only [List.foldl_cons, ih, EdgeWriter.WriteItem, OSRMWriter.WriteItem,
      TrivialTypeWritePolicy.Write, List.length_cons]
    omega

/-- A full `HeaderWriter` lifetime just appends the header's raw bytes
(the finalize policy is the no-op one). -/
theorem HeaderWriter.run_result (s : Stream) (header : List Byte)
    (h : s.pos = s.data.length) :
    HeaderWriter.run s header =
      { data := s.data ++ header, pos := s.data.length + header.length } := by
  simp only [HeaderWriter.run, HeaderWriter.destroy, HeaderWriter.mk,
    OSRMWriter.destroy, OSRMWriter.mk, NoFinalizeWritePolicy.Write,
    TrivialHeaderWritePolicy.Write, Stream.tellp]
  rw [Stream.write_at_end s header h]

/-! ### Claim theorems -/

/-- Claim C1, amended: for every sequence of `N` records of uniform width
written through the counted-record writer, **provided `N < 2^32`** (the
4-byte mark narrows the count modulo `2^32`, see C9), the finalized stream
carries a 4-byte count equal to `N` followed by the records' raw bytes, and
reading the segment back yields count `N` and the original records
byte-for-byte. -/
theorem C1_counted_record_roundtrip (s : Stream) (header : List Byte)
    (items : List (List Byte)) (w : Nat)
    (hpos : s.pos = s.data.length)
    (hw : ∀ it ∈ items, it.length = w)
    (hn : items.length < 4294967296) :
    (EdgeWriter.run s header items).data
      = s.data ++ u32le items.length ++ items.flatten ∧
    readSegment w ((EdgeWriter.run s header items).data.drop s.data.length)
      = (items.length, items) := by
  have hrun := EdgeWriter.run_spec s header items hpos
  have hmod : items.length % 4294967296 = items.length := Nat.mod_eq_of_lt hn
  rw [hrun, hmod]
  refine ⟨rfl, ?_⟩
  rw [List.append_assoc, List.drop_left]
  simp only [readSegment, decodeU32_u32le_append, hmod]
  rw [List.drop_left' (u32le_length items.length),
    readRecords_flatten w items hw]

/-- Witness for C1: three-byte-free concrete run with two 2-byte records. -/
theorem C1_counted_record_roundtrip_witness :
    (EdgeWriter.run ⟨[], 0⟩ [] [[1, 2], [3, 4]]).data
      = [2, 0, 0, 0, 1, 2, 3, 4] ∧
    readSegment 2 ((EdgeWriter.run ⟨[], 0⟩ [] [[1, 2], [3, 4]]).data.drop 0)
      = (2, [[1, 2], [3, 4]]) := by
  have h := C1_counted_record_roundtrip ⟨[], 0⟩ [] [[1, 2], [3, 4]] 2 rfl
    (by decide) (by decide)
  exact ⟨by rw [h.1]; rfl, h.2⟩

/-- Counterexample to C1 as literally stated (all `N ≥ 0`): with
`N = 2^32` one-byte records, the finalizer stores `N % 2^32 = 0`, so reading
back the count does not give `N`. -/
theorem C1_overflow_counterexample :
    ¬ ((readSegment 1 ((EdgeWriter.run ⟨[], 0⟩ []
          (List.replicate 4294967296 [0])).data.drop 0)).1
        = (List.replicate 4294967296 [0]).length) := by
  intro hcontra
  have hrun := EdgeWriter.run_spec ⟨[], 0⟩ [] (List.replicate 4294967296 [0]) rfl
  rw [hrun] at hcontra
  simp only [readSegment, List.drop_zero, List.nil_append, List.length_replicate,
    decodeU32_u32le_append] at hcontra
  omega

/-- Claim C2: a counted-record writer on which `Write` is never called ends
with exactly the 4 placeholder bytes, patched to the count 0. -/
theorem C2_zero_items_segment (header : List Byte) :
    (EdgeWriter.run ⟨[], 0⟩ header []).data = u32le 0 ∧
    (EdgeWriter.run ⟨[], 0⟩ header []).data.length = 4 :=
  ⟨rfl, rfl⟩

/-- Claim C3: for both canonical finalizers, the stream's write position after
finalize equals its position immediately before finalize began. -/
theorem C3_finalize_position_restored (w : WriterState) :
    (EdgeWriter.destroy w).pos = w.stream.pos ∧
    (HeaderWriter.destroy w).pos = w.stream.pos :=
  ⟨rfl, rfl⟩

/-- Claim C4: after exactly `k` calls to `Write` on a counted-record writer,
`Count()` returns `k` (for any stream and header), and the running count never
decreases across a write. `Count()` itself is a pure projection of the writer
state, so it has no side effect in the model. -/
theorem C4_count_is_number_of_writes (s : Stream) (header : List Byte)
    (items : List (List Byte)) :
    (items.foldl EdgeWriter.WriteItem (EdgeWriter.mk s header)).Count
      = items.length ∧
    ∀ w it, w.Count ≤ (EdgeWriter.WriteItem w it).Count := by
  constructor
  · rw [WriterState.Count, foldl_WriteItem_count]
    have h0 : (EdgeWriter.mk s header).count = 0 := rfl
    omega
  · intro w it
    simp only [WriterState.Count, EdgeWriter.WriteItem, OSRMWriter.WriteItem,
      TrivialTypeWritePolicy.Write]
    omega

/-- Claim C5: a header-only writer lifetime appends exactly the header's raw
bytes: output length equals the header's byte width, with no length mark and
no trailing bytes. -/
theorem C5_header_only_exact_bytes (s : Stream) (header : List Byte)
    (hpos : s.pos = s.data.length) :
    (HeaderWriter.run s header).data = s.data ++ header ∧
    (HeaderWriter.run s header).data.length
      = s.data.length + header.length := by
  have h := HeaderWriter.run_result s header hpos
  rw [h]
  exact ⟨rfl, by simp⟩

/-- Witness for C5: a 1-byte pre-existing stream and a 3-byte header value. -/
theorem C5_header_only_exact_bytes_witness :
    (HeaderWriter.run ⟨[9], 1⟩ [1, 2, 3]).data = [9] ++ [1, 2, 3] ∧
    (HeaderWriter.run ⟨[9], 1⟩ [1, 2, 3]).data.length = 1 + 3 :=
  C5_header_only_exact_bytes ⟨[9], 1⟩ [1, 2, 3] rfl

/-- A raw write at a position at or after `p` (with at least `p` bytes already
present) leaves the first `p` bytes unchanged and keeps at least `p` bytes. -/
theorem writeAt_preserves_take (data : List Byte) (pos : Nat) (bs : List Byte)
    (p : Nat) (hp : p ≤ pos) (hd : p ≤ data.length) :
    (writeAt data pos bs).take p = data.take p ∧
    p ≤ (writeAt data pos bs).length := by
  unfold writeAt
  constructor
  · rw [List.append_assoc, List.take_append_of_le_length
      (by simp [List.length_take]; omega), List.take_take,
      Nat.min_eq_left hp]
  · simp only [List.length_append, List.length_take, List.length_drop]
    omega

/-- The fold of `EdgeWriter::Write` never touches bytes before `p` as long as
the write position starts at or after `p`, and it never moves the position
back before `p`; `segment_start_` and `header_offset_` are untouched. -/
theorem foldl_WriteItem_preserves_take (items : List (List Byte))
    (ws : WriterState) (p : Nat)
    (hp : p ≤ ws.stream.pos) (hd : p ≤ ws.stream.data.length) :
    (items.foldl EdgeWriter.WriteItem ws).stream.data.take p
        = ws.stream.data.take p ∧
    p ≤ (items.foldl EdgeWriter.WriteItem ws).stream.pos ∧
    p ≤ (items.foldl EdgeWriter.WriteItem ws).stream.data.length ∧
    (items.foldl EdgeWriter.WriteItem ws).segment_start = ws.segment_start ∧
    (items.foldl EdgeWriter.WriteItem ws).header_offset = ws.header_offset := by
  induction items generalizing ws with
  | nil => exact ⟨rfl, hp, hd, rfl, rfl⟩
  | cons it rest ih =>
    simp only [List.foldl_cons]
    have hstep := writeAt_preserves_take ws.stream.data ws.stream.pos it p hp hd
    have h1 : p ≤ (EdgeWriter.WriteItem ws it).stream.pos := by
      have : (EdgeWriter.WriteItem ws it).stream.pos
          = ws.stream.pos + it.length := rfl
      omega
    have h2 : p ≤ (EdgeWriter.WriteItem ws it).stream.data.length := hstep.2
    obtain ⟨ha, hb, hc, hseg, hoff⟩ := ih (EdgeWriter.WriteItem ws it) h1 h2
    exact ⟨ha.trans hstep.1, hb, hc, hseg, hoff⟩

/-- Claim C6: over a whole counted-record writer lifetime — header placeholder
write, item writes and the finalize patch at `segment_start + header_offset`
— no byte strictly before `segment_start` (the construction-time position) is
modified, and the length-mark header policy reports offset 0. -/
theorem C6_never_writes_before_segment_start (s : Stream) (header : List Byte)
    (items : List (List Byte)) (hpos : s.pos ≤ s.data.length) :
    (EdgeWriter.run s header items).data.take s.pos = s.data.take s.pos ∧
    ∀ h' s' a c, (LengthPrefixHeaderWritePolicy.Write h' s' a c).2 = 0 := by
  refine ⟨?_, fun h' s' a c => rfl⟩
  have hstep0 := writeAt_preserves_take s.data s.pos (u32le 0) s.pos le_rfl hpos
  have hp1 : (EdgeWriter.mk s header).stream.pos = s.pos + 4 := rfl
  have hd1 : (EdgeWriter.mk s header).stream.data
      = writeAt s.data s.pos (u32le 0) := rfl
  have hfold := foldl_WriteItem_preserves_take items (EdgeWriter.mk s header)
    s.pos (by rw [hp1]; omega) (by rw [hd1]; exact hstep0.2)
  obtain ⟨ha, hb, hc, hseg, hoff⟩ := hfold
  have hseg' : (items.foldl EdgeWriter.WriteItem
      (EdgeWriter.mk s header)).segment_start = s.pos := hseg
  have hoff' : (items.foldl EdgeWriter.WriteItem
      (EdgeWriter.mk s header)).header_offset = 0 := hoff
  have hrun : (EdgeWriter.run s header items).data
      = writeAt (items.foldl EdgeWriter.WriteItem
            (EdgeWriter.mk s header)).stream.data
          ((items.foldl EdgeWriter.WriteItem
              (EdgeWriter.mk s header)).segment_start
            + (items.foldl EdgeWriter.WriteItem
                (EdgeWriter.mk s header)).header_offset)
          (u32le ((items.foldl EdgeWriter.WriteItem
              (EdgeWriter.mk s header)).count % 4294967296)) := rfl
  have hfin := writeAt_preserves_take
    (items.foldl EdgeWriter.WriteItem (EdgeWriter.mk s header)).stream.data
    ((items.foldl EdgeWriter.WriteItem (EdgeWriter.mk s header)).segment_start
      + (items.foldl EdgeWriter.WriteItem
          (EdgeWriter.mk s header)).header_offset)
    (u32le ((items.foldl EdgeWriter.WriteItem
        (EdgeWriter.mk s header)).count % 4294967296))
    s.pos (by rw [hseg', hoff']; omega) hc
  rw [hrun, hfin.1, ha, hd1, hstep0.1]

/-- Witness for C6: a stream with two pre-existing bytes and the position in
the middle of them; the byte before `segment_start` survives the lifetime. -/
theorem C6_never_writes_before_segment_start_witness :
    (EdgeWriter.run ⟨[7, 8], 1⟩ [] [[5]]).data.take 1 = [7, 8].take 1 ∧
    ∀ h' s' a c, (LengthPrefixHeaderWritePolicy.Write h' s' a c).2 = 0 :=
  C6_never_writes_before_segment_start ⟨[7, 8], 1⟩ [] [[5]] (by decide)

/-- Claim C9: the finalize policy performs no overflow check: the four bytes
patched at `segment_start + header_offset` decode to `count % 2^32`
(`static_cast<unsigned>(count)`), for every count. -/
theorem C9_finalize_narrows_count (s : Stream) (seg off count : Nat)
    (h : seg + off ≤ s.data.length) :
    decodeU32
        (((LengthPrefixFinalizeWritePolicy.Write s seg off count).1).data.drop
          (seg + off))
      = count % 4294967296 := by
  have hdata : ((LengthPrefixFinalizeWritePolicy.Write s seg off count).1).data
      = s.data.take (seg + off) ++ u32le (count % 4294967296)
          ++ s.data.drop (seg + off + 4) := rfl
  have hlen : (s.data.take (seg + off)).length = seg + off := by
    simp only [List.length_take]
    omega
  rw [hdata, List.append_assoc, List.drop_left' hlen, decodeU32_u32le_append]
  omega

/-- Witness for C9: a count one past `2^32` is patched in as the byte value 1. -/
theorem C9_finalize_narrows_count_witness :
    decodeU32
        (((LengthPrefixFinalizeWritePolicy.Write ⟨[9, 9, 9, 9, 9, 9], 6⟩
              1 1 4294967297).1).data.drop (1 + 1))
      = 1 :=
  C9_finalize_narrows_count ⟨[9, 9, 9, 9, 9, 9], 6⟩ 1 1 4294967297 (by decide)

/-- Claim C10: determinism — two lifetimes of the counted-record writer (and
of the header-only writer) started at equal positions, fed the same header
value and the same item sequence, produce identical segment bytes and equal
final counts, independent of the streams' pre-existing content. -/
theorem C10_writer_deterministic (s1 s2 : Stream) (header : List Byte)
    (items : List (List Byte)) (_hpos : s1.pos = s2.pos)
    (h1 : s1.pos = s1.data.length) (h2 : s2.pos = s2.data.length) :
    (EdgeWriter.run s1 header items).data.drop s1.pos
      = (EdgeWriter.run s2 header items).data.drop s2.pos ∧
    (items.foldl EdgeWriter.WriteItem (EdgeWriter.mk s1 header)).Count
      = (items.foldl EdgeWriter.WriteItem (EdgeWriter.mk s2 header)).Count ∧
    (HeaderWriter.run s1 header).data.drop s1.pos
      = (HeaderWriter.run s2 header).data.drop s2.pos := by
  refine ⟨?_, ?_, ?_⟩
  · have e1 := EdgeWriter.run_spec s1 header items h1
    have e2 := EdgeWriter.run_spec s2 header items h2
    simp only [e1, e2, h1, h2, List.append_assoc, List.drop_left]
  · simp only [WriterState.Count, foldl_WriteItem_count]
    have c1 : (EdgeWriter.mk s1 header).count = 0 := rfl
    have c2 : (EdgeWriter.mk s2 header).count = 0 := rfl
    omega
  · have e1 := HeaderWriter.run_result s1 header h1
    have e2 := HeaderWriter.run_result s2 header h2
    simp only [e1, e2, h1, h2, List.drop_left]

/-- Witness for C10: two streams with different pre-existing bytes, equal
positions. -/
theorem C10_writer_deterministic_witness :
    (EdgeWriter.run ⟨[7], 1⟩ [1] [[5], [6]]).data.drop 1
      = (EdgeWriter.run ⟨[8], 1⟩ [1] [[5], [6]]).data.drop 1 ∧
    ([[5], [6]].foldl EdgeWriter.WriteItem (EdgeWriter.mk ⟨[7], 1⟩ [1])).Count
      = ([[5], [6]].foldl EdgeWriter.WriteItem
          (EdgeWriter.mk ⟨[8], 1⟩ [1])).Count ∧
    (HeaderWriter.run ⟨[7], 1⟩ [1]).data.drop 1
      = (HeaderWriter.run ⟨[8], 1⟩ [1]).data.drop 1 :=
  C10_writer_deterministic ⟨[7], 1⟩ ⟨[8], 1⟩ [1] [[5], [6]] rfl rfl rfl

/-! ### Failure propagation (claim C8) -/

/-- Writing at the very end of the data appends the bytes. -/
theorem writeAt_length_eq (data bs : List Byte) :
    writeAt data data.length bs = data ++ bs := by
  unfold writeAt
  rw [List.take_length, List.drop_eq_nil_of_le (by omega), List.append_nil]

theorem FStream.write_of_fail (s : FStream) (bs : List Byte)
    (h : s.fail = true) : s.write bs = s := by
  simp [FStream.write, h]

theorem FStream.seekp_of_fail (s : FStream) (p : Nat)
    (h : s.fail = true) : s.seekp p = s := by
  simp [FStream.seekp, h]

/-- Once the stream has failed, further item writes leave it untouched. -/
theorem foldl_FWriteItem_stream_of_fail (items : List (List Byte))
    (ws : FWriterState) (h : ws.stream.fail = true) :
    (items.foldl FEdgeWriter.WriteItem ws).stream = ws.stream := by
  induction items generalizing ws with
  | nil => rfl
  | cons it rest ih =>
    simp only [List.foldl_cons]
    have hw : (FEdgeWriter.WriteItem ws it).stream = ws.stream := by
      simp only [FEdgeWriter.WriteItem, FTrivialTypeWrite]
      exact FStream.write_of_fail ws.stream it h
    rw [ih (FEdgeWriter.WriteItem ws it) (by rw [hw]; exact h), hw]

/-- Once the stream has failed, the finalizer leaves it untouched: in
particular it never clears the failbit. -/
theorem FEdgeWriter.destroy_of_fail (w : FWriterState)
    (h : w.stream.fail = true) : FEdgeWriter.destroy w = w.stream := by
  simp only [FEdgeWriter.destroy, FLengthPrefixFinalizeWrite, FStream.tellp]
  rw [FStream.seekp_of_fail w.stream _ h, FStream.write_of_fail w.stream _ h,
    FStream.seekp_of_fail w.stream _ h]

/-- A successful single item write on a good stream at its end. -/
theorem FEdgeWriter.WriteItem_ok (ws : FWriterState) (it : List Byte)
    (hf : ws.stream.fail = false) (hp : ws.stream.pos = ws.stream.data.length)
    (hle : ws.stream.pos + it.length ≤ ws.stream.cap) :
    (FEdgeWriter.WriteItem ws it).stream =
      { data := ws.stream.data ++ it, pos := ws.stream.pos + it.length,
        cap := ws.stream.cap, fail := false } := by
  have hle' : ws.stream.data.length + it.length ≤ ws.stream.cap := by omega
  simp [FEdgeWriter.WriteItem, FTrivialTypeWrite, FStream.write, hf, hle, hle',
    hp, writeAt_length_eq]

/-- When every item fits the capacity, the fold of item writes succeeds and
behaves like the failure-free model. -/
theorem foldl_FWriteItem_ok (items : List (List Byte)) (ws : FWriterState)
    (hf : ws.stream.fail = false) (hp : ws.stream.pos = ws.stream.data.length)
    (hcap : ws.stream.pos + (items.map List.length).sum ≤ ws.stream.cap) :
    (items.foldl FEdgeWriter.WriteItem ws).stream =
      { data := ws.stream.data ++ items.flatten,
        pos := ws.stream.pos + (items.map List.length).sum,
        cap := ws.stream.cap, fail := false } ∧
    (items.foldl FEdgeWriter.WriteItem ws).segment_start = ws.segment_start ∧
    (items.foldl FEdgeWriter.WriteItem ws).header_offset = ws.header_offset := by
  induction items generalizing ws with
  | nil =>
    refine ⟨?_, rfl, rfl⟩
    obtain ⟨⟨d, p, c, f⟩, seg, off, cnt⟩ := ws
    simp only at hf hp ⊢
    simp [hf, hp]
  | cons it rest ih =>
    simp only [List.map_cons, List.sum_cons] at hcap
    have hle : ws.stream.pos + it.length ≤ ws.stream.cap := by omega
    have hw := FEdgeWriter.WriteItem_ok ws it hf hp hle
    simp only [List.foldl_cons]
    obtain ⟨ha, hb, hc⟩ := ih (FEdgeWriter.WriteItem ws it)
      (by rw [hw])
      (by rw [hw]; simp [hp])
      (by rw [hw]; simp; omega)
    refine ⟨?_, ?_, ?_⟩
    · rw [ha, hw]
      simp only [List.flatten_cons, List.map_cons, List.sum_cons,
        List.append_assoc, FStream.mk.injEq, true_and, and_true]
      omega
    · rw [hb]; rfl
    · rw [hc]; rfl

/-- When the bytes to write exceed the capacity, some item write fails and
the failbit is set at the end of the fold. -/
theorem foldl_FWriteItem_overflow (items : List (List Byte))
    (ws : FWriterState)
    (hf : ws.stream.fail = false) (hp : ws.stream.pos = ws.stream.data.length)
    (hple : ws.stream.pos ≤ ws.stream.cap)
    (hcap : ws.stream.cap < ws.stream.pos + (items.map List.length).sum) :
    (items.foldl FEdgeWriter.WriteItem ws).stream.fail = true := by
  induction items generalizing ws with
  | nil =>
    exfalso
    simp only [List.map_nil, List.sum_nil] at hcap
    omega
  | cons it rest ih =>
    simp only [List.map_cons, List.sum_cons] at hcap
    simp only [List.foldl_cons]
    by_cases hle : ws.stream.pos + it.length ≤ ws.stream.cap
    · have hw := FEdgeWriter.WriteItem_ok ws it hf hp hle
      exact ih (FEdgeWriter.WriteItem ws it) (by rw [hw])
        (by rw [hw]; simp [hp]) (by rw [hw]; simp; omega)
        (by rw [hw]; simp; omega)
    · have hw : (FEdgeWriter.WriteItem ws it).stream
          = { ws.stream with fail := true } := by
        simp [FEdgeWriter.WriteItem, FTrivialTypeWrite, FStream.write, hf, hle]
      rw [foldl_FWriteItem_stream_of_fail rest _ (by rw [hw]), hw]

/-- On a good stream whose capacity covers the patched length mark, the
finalizer succeeds and leaves the failbit clear. -/
theorem FEdgeWriter.destroy_fail_of_ok (w : FWriterState)
    (hf : w.stream.fail = false)
    (hcap : w.segment_start + w.header_offset + 4 ≤ w.stream.cap) :
    (FEdgeWriter.destroy w).fail = false := by
  simp [FEdgeWriter.destroy, FLengthPrefixFinalizeWrite, FStream.tellp,
    FStream.seekp, FStream.write, hf, hcap, u32le_length]

/-- Claim C8: stream-I/O failure during header write, item writes or finalize
is propagated, not absorbed.  In the failbit model of `std::ostream`:
(a) a stream that has already failed stays failed through a whole writer
lifetime — no operation of the writer clears the flag; (b) starting from a
good stream positioned at its end, the lifetime ends with the failbit set
exactly when some underlying write failed, which happens iff the bytes to
write (the 4-byte placeholder plus all item bytes) exceed the sink capacity.
The failed state is observable by the caller on the borrowed stream. -/
theorem C8_io_failure_propagates (s : FStream) (header : List Byte)
    (items : List (List Byte)) :
    (s.fail = true → (FEdgeWriter.run s header items).fail = true) ∧
    (s.fail = false → s.pos = s.data.length →
      ((FEdgeWriter.run s header items).fail = true ↔
        s.cap < s.pos + 4 + (items.map List.length).sum)) := by
  constructor
  · intro hf
    have hmk : (FEdgeWriter.mk s header).stream = s := by
      simp only [FEdgeWriter.mk, FLengthPrefixHeaderWrite]
      exact FStream.write_of_fail s _ hf
    have hfold := foldl_FWriteItem_stream_of_fail items (FEdgeWriter.mk s header)
      (by rw [hmk]; exact hf)
    simp only [FEdgeWriter.run]
    rw [FEdgeWriter.destroy_of_fail _ (by rw [hfold, hmk]; exact hf), hfold, hmk]
    exact hf
  · intro hf hp
    by_cases hcap4 : s.pos + 4 ≤ s.cap
    · have hcap4' : s.data.length + 4 ≤ s.cap := by omega
      have hmk : (FEdgeWriter.mk s header).stream =
          { data := s.data ++ u32le 0, pos := s.pos + 4, cap := s.cap,
            fail := false } := by
        simp [FEdgeWriter.mk, FLengthPrefixHeaderWrite, FStream.write, hf,
          hcap4, hcap4', hp, writeAt_length_eq, u32le_length]
      have hseg : (FEdgeWriter.mk s header).segment_start = s.pos := rfl
      have hoff : (FEdgeWriter.mk s header).header_offset = 0 := rfl
      by_cases hcapall : s.pos + 4 + (items.map List.length).sum ≤ s.cap
      · obtain ⟨ha, hb, hc⟩ := foldl_FWriteItem_ok items (FEdgeWriter.mk s header)
          (by rw [hmk]) (by rw [hmk]; simp [hp, u32le_length])
          (by rw [hmk]; simp; omega)
        have hwcap : (items.foldl FEdgeWriter.WriteItem
              (FEdgeWriter.mk s header)).segment_start
            + (items.foldl FEdgeWriter.WriteItem
                (FEdgeWriter.mk s header)).header_offset + 4
            ≤ (items.foldl FEdgeWriter.WriteItem
                (FEdgeWriter.mk s header)).stream.cap := by
          rw [hb, hc, hseg, hoff, ha, hmk]
          simp
          omega
        have hdf := FEdgeWriter.destroy_fail_of_ok
          (items.foldl FEdgeWriter.WriteItem (FEdgeWriter.mk s header))
          (by rw [ha]) hwcap
        simp only [FEdgeWriter.run]
        rw [hdf]
        simp only [Bool.false_eq_true, false_iff]
        omega
      · have hovf := foldl_FWriteItem_overflow items (FEdgeWriter.mk s header)
          (by rw [hmk]) (by rw [hmk]; simp [hp, u32le_length])
          (by rw [hmk]; simp; omega) (by rw [hmk]; simp; omega)
        simp only [FEdgeWriter.run]
        rw [FEdgeWriter.destroy_of_fail _ hovf]
        simp only [hovf, true_iff]
        omega
    · have hmk : (FEdgeWriter.mk s header).stream = { s with fail := true } := by
        simp [FEdgeWriter.mk, FLengthPrefixHeaderWrite, FStream.write, hf,
          hcap4, u32le_length]
      have hfold := foldl_FWriteItem_stream_of_fail items
        (FEdgeWriter.mk s header) (by rw [hmk])
      simp only [FEdgeWriter.run]
      rw [FEdgeWriter.destroy_of_fail _ (by rw [hfold, hmk]), hfold, hmk]
      simp only [true_iff]
      omega

/-- Witness for C8: a sink of capacity 3 cannot even hold the 4-byte
placeholder; the lifetime ends with the failbit set. -/
theorem C8_io_failure_propagates_witness :
    (FEdgeWriter.run ⟨[], 0, 3, false⟩ [] []).fail = true :=
  ((C8_io_failure_propagates ⟨[], 0, 3, false⟩ [] []).2 rfl rfl).mpr (by decide)

end OsrmIO
